import Mathlib

/-
Shallow embedding of `cellpylib/ca_functions.py`.

Cell states are modelled as natural numbers (digit values) for the rule
evaluators and as integers for the evolver's rows.  Python strings of base-k
digit characters are modelled as lists of digit values; Python dicts keyed by
such strings are modelled as association lists built with the most recent
assignment in front (keys are assigned at most once in the code below, so the
two coincide).  Python exceptions are modelled with `Except String`.  The
global random source used by `random_rule_table` is modelled by an oracle
recording, per loop index, the outcome of the `random.random()` comparison and
the value produced by `random.choice`.
-/

namespace CellPyLib

/-- Model of `bits_to_int(bits)`: reverse the list and, for each position
`shift` holding a truthy (nonzero) entry, add `2 ^ shift` to the total. -/
def bits_to_int (bits : List ℕ) : ℕ :=
  (bits.reverse.enum).foldl (fun total sj => if sj.2 ≠ 0 then total + 2 ^ sj.1 else total) 0

/-- Model of Python `str.zfill` on digit lists: left-pad with zeros up to
width `w`; a list already at least `w` long is returned unchanged. -/
def zfill (w : ℕ) (l : List ℕ) : List ℕ := List.replicate (w - l.length) 0 ++ l

/-- Model of `np.base_repr(i, k)` as the list of base-`k` digit values, most
significant first; `0` is rendered as the single digit `0`. -/
def base_repr (k i : ℕ) : List ℕ := if i = 0 then [0] else (Nat.digits k i).reverse

/-- Model of `int_to_bits(num, num_digits)`: the binary digits of `num`
(`bin(num)[2:]`, most significant first), left-padded with zeros to
`num_digits` entries by `np.pad`.  (For `num ≥ 2 ^ num_digits` the Python
call would raise inside `np.pad`; this model then returns the unpadded
digits, a case outside every claim considered here.) -/
def int_to_bits (num num_digits : ℕ) : List ℕ := zfill num_digits (base_repr 2 num)

/-- Model of `nks_rule(state, rule)`: index the width-`2^len(state)` binary
expansion of `rule` at position `(n-1) - state_int`.  Because `bits_to_int`
is always below `2^len(state)`, that index is in range. -/
def nks_rule (state : List ℕ) (rule : ℕ) : ℕ :=
  let state_int := bits_to_int state
  let n := 2 ^ state.length
  let rule_bin_array := int_to_bits rule n
  rule_bin_array.getD (n - 1 - state_int) 0

/-- Model of `number_rule(state, rule)`: as `nks_rule` but indexed by
`state_int` directly (lexicographic order). -/
def number_rule (state : List ℕ) (rule : ℕ) : ℕ :=
  let state_int := bits_to_int state
  let rule_bin_array := int_to_bits rule (2 ^ state.length)
  rule_bin_array.getD state_int 0

/-- Model of Python sequence indexing `l[i]`: a negative index counts from the
right end; an access out of range raises `IndexError`. -/
def pyGet (l : List ℕ) (i : ℤ) : Except String ℕ :=
  if 0 ≤ i then
    if i < (l.length : ℤ) then .ok (l.getD i.toNat 0)
    else .error "IndexError: string index out of range"
  else
    if 0 ≤ i + (l.length : ℤ) then .ok (l.getD (i + (l.length : ℤ)).toNat 0)
    else .error "IndexError: string index out of range"

/-- Model of `totalistic_rule(state, k, rule)`: write `rule` in base `k`,
zero-fill to width `3k-2`, reject it as out of range if still longer, and
otherwise look up the digit at Python index `(3k-3) - sum(state)` (which may
be negative and wrap, exactly as Python string indexing does).  The digit
characters of `np.base_repr` are valid base-`k` digits, so `int(c, k)` is the
digit's value. -/
def totalistic_rule (state : List ℕ) (k : ℕ) (rule : ℕ) : Except String ℕ :=
  let rule_string := zfill (3 * k - 2) (base_repr k rule)
  if rule_string.length > 3 * k - 2 then .error "rule number out of range"
  else
    let state_sum := state.sum
    pyGet rule_string ((3 * k - 3 : ℤ) - (state_sum : ℤ))

/-- The digit of the zero-filled base-`k` rule string that `totalistic_rule`
associates with a neighbourhood sum `t` in the documented range
`0 ≤ t ≤ 3k-3` (the rightmost digit is for sum `0`). -/
def rule_digit (k rule t : ℕ) : ℕ :=
  (zfill (3 * k - 2) (base_repr k rule)).getD (3 * k - 3 - t) 0

/-- Model of `index_strides(arr, window_size)` inside `evolve`: concatenate
`arr[-window_size//2+1:]`, `arr` and `arr[:window_size//2]`, then list every
contiguous window of length `window_size`.  For `window_size ≥ 3` the first
slice start `-window_size//2+1` is negative and takes the last
`(window_size-1)/2` elements; for `window_size ≤ 2` it is `0` and takes the
whole list.  The number of windows is `len + 1 - window_size` as in the
`as_strided` shape (the model returns no windows where numpy would reject a
negative shape). -/
def index_strides {α : Type} (arr : List α) (window_size : ℕ) : List (List α) :=
  let front := if window_size ≤ 2 then arr else arr.drop (arr.length - (window_size - 1) / 2)
  let arr2 := front ++ arr ++ arr.take (window_size / 2)
  (List.range (arr2.length + 1 - window_size)).map fun j => (arr2.drop j).take window_size

/-- The per-cell neighbourhoods `states = cells[strides]` built in `evolve`:
windows of `np.arange(len(cells))`, each entry fancy-indexed into `cells`. -/
def neighborhoods (cells : List ℤ) (r : ℕ) : List (List ℤ) :=
  (index_strides (List.range cells.length) (2 * r + 1)).map
    fun w => w.map fun ix => cells.getD ix 0

/-- One loop iteration of `evolve`: `array[i] = np.array([apply_rule(s, c) for
c, s in enumerate(states)])`, computed entirely from the previous row. -/
def evolveRow (apply_rule : List ℤ → ℕ → ℤ) (r : ℕ) (cells : List ℤ) : List ℤ :=
  (neighborhoods cells r).enum.map fun cs => apply_rule cs.2 cs.1

/-- The rows produced by the `evolve` loop starting from `row`: `n` rows, the
first being `row` itself and each later one obtained by `evolveRow` from its
predecessor. -/
def evolveFrom (apply_rule : List ℤ → ℕ → ℤ) (r : ℕ) : ℕ → List ℤ → List (List ℤ)
  | 0, _ => []
  | n + 1, row => row :: evolveFrom apply_rule r n (evolveRow apply_rule r row)

/-- Model of `evolve(cellular_automaton, n_steps, apply_rule, r)`: row 0 is
the supplied initial row and row `i` is obtained from row `i-1` by applying
the rule to every cell's periodic neighbourhood. -/
def evolve (cellular_automaton : List ℤ) (n_steps : ℕ)
    (apply_rule : List ℤ → ℕ → ℤ) (r : ℕ) : List (List ℤ) :=
  evolveFrom apply_rule r n_steps cellular_automaton

/-- The random draws consumed by the `random_rule_table` loop, one per
neighbourhood index `i`: `coin i` records the outcome of the comparison
`random.random() < 1 - lambda_val`, and `choice i` records the value that
`random.choice(other_states)` would produce at that iteration. -/
structure RandOracle where
  coin : ℕ → Bool
  choice : ℕ → ℕ

/-- Model of the test `len(set(state)) == 1`: the list is nonempty and all of
its entries equal the first one. -/
def isUniform (s : List ℕ) : Bool := !s.isEmpty && s.all fun x => x == s.headD 0

/-- The neighbourhood string for loop index `i` in `random_rule_table`:
`np.base_repr(i, k).zfill(n)` as a digit list. -/
def stateStr (k n i : ℕ) : List ℕ := zfill n (base_repr k i)

/-- The base-`k` integer value of a most-significant-first digit list; this is
the inverse of `stateStr` on valid width-`n` digit lists. -/
def stateVal (k : ℕ) (s : List ℕ) : ℕ := Nat.ofDigits k s.reverse

/-- Model of `other_states = [x for x in range(0, k) if x != quiescent_state]`. -/
def other_states (k qs : ℕ) : List ℕ := (List.range k).filter fun x => x != qs

/-- One iteration body of the table-construction loop of `random_rule_table`:
given the table built so far, the loop index and the neighbourhood string,
return the assigned next state together with whether this branch increments
the quiescent-state counter (the third branch's `random.choice` arm never
does, even though every other branch increments exactly when the assigned
state is the quiescent one). -/
def stepPair (qs : ℕ) (strong_quiescence isotropic : Bool) (o : RandOracle)
    (table : List (List ℕ × ℕ)) (i : ℕ) (state : List ℕ) : ℕ × Bool :=
  if strong_quiescence && isUniform state then
    let next_state := state.headD 0
    (next_state, next_state == qs)
  else
    match (if isotropic then table.lookup state.reverse else none) with
    | some v => (v, v == qs)
    | none => if o.coin i then (qs, true) else (o.choice i, false)

/-- The table-construction loop of `random_rule_table` after `i` iterations:
the association list of assignments made so far (most recent first) and the
running `quiescent_state_count`. -/
def tableLoop (k n qs : ℕ) (strong_quiescence isotropic : Bool) (o : RandOracle) :
    ℕ → List (List ℕ × ℕ) × ℕ
  | 0 => ([], 0)
  | i + 1 =>
    let acc := tableLoop k n qs strong_quiescence isotropic o i
    let state := stateStr k n i
    let p := stepPair qs strong_quiescence isotropic o acc.1 i state
    ((state, p.1) :: acc.1, if p.2 then acc.2 + 1 else acc.2)

/-- The next state assigned to the neighbourhood with loop index `i` by
`random_rule_table`. -/
def valAt (k n qs : ℕ) (strong_quiescence isotropic : Bool) (o : RandOracle) (i : ℕ) : ℕ :=
  (stepPair qs strong_quiescence isotropic o
    (tableLoop k n qs strong_quiescence isotropic o i).1 i (stateStr k n i)).1

/-- The loop index of the mirror (reversed) neighbourhood of the
neighbourhood with loop index `i`. -/
def mirrorIdx (k n i : ℕ) : ℕ := stateVal k ((stateStr k n i).reverse)

/-- Model of `random_rule_table(k, r, lambda_val, quiescent_state,
strong_quiescence, isotropic)` with the random draws supplied by an oracle.
`lambda_val` enters the code only through the comparisons
`random.random() < 1 - lambda_val`, whose outcomes the oracle's `coin`
records, so it is not a separate parameter of the model; `quiescent_state` is
taken as given (its `None` default draws it randomly).  The division
producing the actual lambda is modelled exactly, over `ℚ`. -/
def random_rule_table (k r qs : ℕ) (strong_quiescence isotropic : Bool) (o : RandOracle) :
    Except String (List (List ℕ × ℕ) × ℚ × ℕ) :=
  if qs ≤ k - 1 then
    let n := 2 * r + 1
    let res := tableLoop k n qs strong_quiescence isotropic o (k ^ n)
    .ok (res.1, (((k : ℚ) ^ n) - (res.2 : ℚ)) / ((k : ℚ) ^ n), qs)
  else .error "quiescent state must be a number in 0..k-1"

/-! ### Digit-codec lemmas -/

theorem ofDigits_replicate_zero (b : ℕ) : ∀ p : ℕ, Nat.ofDigits b (List.replicate p 0) = 0
  | 0 => rfl
  | p + 1 => by
    rw [List.replicate_succ, Nat.ofDigits_cons, ofDigits_replicate_zero b p]
    simp

theorem digits_getD {b : ℕ} (hb : 1 < b) : ∀ (j v : ℕ), (Nat.digits b v).getD j 0 = v / b ^ j % b
  | 0, v => by
    rcases Nat.eq_zero_or_pos v with rfl | hv
    · simp
    · rw [Nat.digits_def' hb hv]
      simp
  | j + 1, v => by
    rcases Nat.eq_zero_or_pos v with rfl | hv
    · simp
    · rw [Nat.digits_def' hb hv, List.getD_cons_succ, digits_getD hb j (v / b),
        Nat.div_div_eq_div_mul, ← pow_succ']

theorem exists_leading_zeros (s : List ℕ) :
    ∃ z s', s = List.replicate z 0 ++ s' ∧ (s' = [] ∨ ∃ a t, s' = a :: t ∧ a ≠ 0) := by
  induction s with
  | nil => exact ⟨0, [], rfl, Or.inl rfl⟩
  | cons a t ih =>
    rcases Nat.eq_zero_or_pos a with rfl | ha
    · obtain ⟨z, s', hs, h'⟩ := ih
      exact ⟨z + 1, s', by rw [List.replicate_succ, List.cons_append, hs], h'⟩
    · exact ⟨0, a :: t, rfl, Or.inr ⟨a, t, rfl, ha.ne'⟩⟩

theorem base_repr_lt {k v : ℕ} (hk : 1 < k) : ∀ d ∈ base_repr k v, d < k := by
  intro d hd
  unfold base_repr at hd
  split at hd
  · simp at hd
    omega
  · rw [List.mem_reverse] at hd
    exact Nat.digits_lt_base hk hd

theorem length_base_repr_le {k v w : ℕ} (hk : 1 < k) (hw : 1 ≤ w) (hv : v < k ^ w) :
    (base_repr k v).length ≤ w := by
  unfold base_repr
  split_ifs with h
  · simpa using hw
  · rw [List.length_reverse, Nat.digits_len k v hk h]
    have := Nat.log_lt_of_lt_pow (b := k) h hv
    omega

theorem length_zfill (w : ℕ) (l : List ℕ) : (zfill w l).length = max w l.length := by
  simp only [zfill, List.length_append, List.length_replicate]
  omega

theorem stateVal_replicate_append (k z : ℕ) (s : List ℕ) :
    stateVal k (List.replicate z 0 ++ s) = stateVal k s := by
  unfold stateVal
  rw [List.reverse_append, List.reverse_replicate, Nat.ofDigits_append,
    ofDigits_replicate_zero]
  simp

theorem stateVal_base_repr (k i : ℕ) : stateVal k (base_repr k i) = i := by
  unfold stateVal base_repr
  split_ifs with h
  · subst h
    simp [Nat.ofDigits]
  · rw [List.reverse_reverse, Nat.ofDigits_digits]

theorem stateVal_stateStr (k n i : ℕ) : stateVal k (stateStr k n i) = i := by
  unfold stateStr zfill
  rw [stateVal_replicate_append, stateVal_base_repr]

theorem stateVal_lt {k : ℕ} (hk : 1 < k) {s : List ℕ} (hdig : ∀ d ∈ s, d < k) :
    stateVal k s < k ^ s.length := by
  unfold stateVal
  have : Nat.ofDigits k s.reverse < k ^ s.reverse.length :=
    Nat.ofDigits_lt_base_pow_length hk fun x hx => hdig x (List.mem_reverse.mp hx)
  simpa using this

theorem stateStr_zero {k n : ℕ} (hn : 1 ≤ n) : stateStr k n 0 = List.replicate n 0 := by
  unfold stateStr base_repr zfill
  rw [if_pos rfl]
  simp only [List.length_singleton]
  rw [← List.replicate_succ', Nat.sub_add_cancel hn]

theorem stateStr_stateVal {k n : ℕ} (hk : 1 < k) (hn : 1 ≤ n) {s : List ℕ}
    (hlen : s.length = n) (hdig : ∀ d ∈ s, d < k) : stateStr k n (stateVal k s) = s := by
  obtain ⟨z, s', rfl, h'⟩ := exists_leading_zeros s
  rw [stateVal_replicate_append]
  rcases h' with rfl | ⟨a, t, rfl, ha⟩
  · have hz : z = n := by simpa using hlen
    subst hz
    show stateStr k z 0 = _
    rw [stateStr_zero hn]
    simp
  · have hlast : ∀ (h : (a :: t).reverse ≠ []), ((a :: t).reverse).getLast h ≠ 0 := by
      intro h
      rw [List.getLast_reverse]
      simpa using ha
    have hdig' : ∀ d ∈ (a :: t).reverse, d < k := by
      intro d hd
      exact hdig d (by simp only [List.mem_append]; right; exact List.mem_reverse.mp hd)
    have hdigits : Nat.digits k (stateVal k (a :: t)) = (a :: t).reverse := by
      unfold stateVal
      exact Nat.digits_ofDigits k hk _ hdig' hlast
    have hne : stateVal k (a :: t) ≠ 0 := by
      intro h0
      rw [h0] at hdigits
      simp at hdigits
    unfold stateStr base_repr
    rw [if_neg hne, hdigits, List.reverse_reverse]
    unfold zfill
    have : n - (a :: t).length = z := by
      have := hlen
      simp only [List.length_append, List.length_replicate] at this
      omega
    rw [this]

theorem foldl_enumFrom_bits {l : List ℕ} (hl : ∀ x ∈ l, x ≤ 1) :
    ∀ (a j : ℕ),
      (List.enumFrom j l).foldl
          (fun total sj => if sj.2 ≠ 0 then total + 2 ^ sj.1 else total) a
        = a + 2 ^ j * Nat.ofDigits 2 l := by
  induction l with
  | nil =>
    intro a j
    simp [Nat.ofDigits_nil]
  | cons d t ih =>
    intro a j
    show List.foldl _ (if d ≠ 0 then a + 2 ^ j else a) (List.enumFrom (j + 1) t) = _
    have hd : d ≤ 1 := hl d (List.mem_cons_self d t)
    have ht : ∀ x ∈ t, x ≤ 1 := fun x hx => hl x (List.mem_cons_of_mem d hx)
    rw [ih ht _ (j + 1), Nat.ofDigits_cons]
    interval_cases d
    · simp [pow_succ]
      ring
    · simp [pow_succ]
      ring

theorem bits_to_int_eq_ofDigits {l : List ℕ} (hl : ∀ x ∈ l, x ≤ 1) :
    bits_to_int l = Nat.ofDigits 2 l.reverse := by
  unfold bits_to_int
  rw [List.enum_eq_enumFrom,
    foldl_enumFrom_bits (fun x hx => hl x (List.mem_reverse.mp hx)) 0 0]
  simp

theorem length_int_to_bits {v w : ℕ} (hw : 1 ≤ w) (hv : v < 2 ^ w) :
    (int_to_bits v w).length = w := by
  unfold int_to_bits
  rw [length_zfill]
  have := length_base_repr_le one_lt_two hw hv
  omega

theorem int_to_bits_le_one {v w : ℕ} : ∀ x ∈ int_to_bits v w, x ≤ 1 := by
  intro x hx
  unfold int_to_bits zfill at hx
  rw [List.mem_append] at hx
  rcases hx with hx | hx
  · rw [List.eq_of_mem_replicate hx]
    omega
  · have := base_repr_lt one_lt_two x hx
    omega

theorem int_to_bits_zero {w : ℕ} (hw : 1 ≤ w) : int_to_bits 0 w = List.replicate w 0 := by
  unfold int_to_bits base_repr zfill
  rw [if_pos rfl]
  simp only [List.length_singleton]
  rw [← List.replicate_succ', Nat.sub_add_cancel hw]

theorem getD_int_to_bits {v w j : ℕ} (hv : v < 2 ^ w) (hj : j < w) :
    (int_to_bits v w).getD (w - 1 - j) 0 = v / 2 ^ j % 2 := by
  have hw : 1 ≤ w := by omega
  rcases Nat.eq_zero_or_pos v with rfl | hvpos
  · rw [int_to_bits_zero hw, List.getD_eq_getElem?_getD, List.getElem?_replicate]
    split <;> simp
  · have hlen := length_base_repr_le one_lt_two hw hv
    unfold int_to_bits zfill
    have hbrd : base_repr 2 v = (Nat.digits 2 v).reverse := by
      simp [base_repr, Nat.pos_iff_ne_zero.mp hvpos]
    set L := (base_repr 2 v).length with hL
    have hLd : L = (Nat.digits 2 v).length := by rw [hL, hbrd, List.length_reverse]
    have hvL : v < 2 ^ L := by
      rw [hLd]
      exact Nat.lt_base_pow_length_digits one_lt_two
    rcases Nat.lt_or_ge j L with hjL | hjL
    · -- the index lands in the digits part
      have hidx : (List.replicate (w - L) (0 : ℕ)).length ≤ w - 1 - j := by
        simp only [List.length_replicate]
        omega
      rw [List.getD_eq_getElem?_getD, List.getElem?_append_right hidx]
      have hidx2 : w - 1 - j - (List.replicate (w - L) (0 : ℕ)).length = L - 1 - j := by
        simp only [List.length_replicate]
        omega
      rw [hidx2, hbrd, List.getElem?_reverse (by rw [← hLd]; omega)]
      have hidx3 : (Nat.digits 2 v).length - 1 - (L - 1 - j) = j := by
        rw [← hLd]
        omega
      rw [hidx3, ← List.getD_eq_getElem?_getD, digits_getD one_lt_two]
    · -- the index lands in the zero padding, and the quotient is zero
      have hidx : w - 1 - j < (List.replicate (w - L) (0 : ℕ)).length := by
        simp only [List.length_replicate]
        omega
      rw [List.getD_eq_getElem?_getD, List.getElem?_append_left hidx,
        List.getElem?_replicate]
      have hdiv : v / 2 ^ j = 0 := by
        apply Nat.div_eq_of_lt
        calc v < 2 ^ L := hvL
        _ ≤ 2 ^ j := Nat.pow_le_pow_right (by omega) hjL
      have hidx' : w - 1 - j < w - L := by omega
      simp [hidx', hdiv]

theorem ofDigits_map_compl : ∀ (l : List ℕ), (∀ x ∈ l, x ≤ 1) →
    Nat.ofDigits 2 (l.map fun x => 1 - x) + Nat.ofDigits 2 l + 1 = 2 ^ l.length := by
  intro l
  induction l with
  | nil => intro _; simp [Nat.ofDigits_nil]
  | cons d t ih =>
    intro hl
    have hd : d ≤ 1 := hl d (List.mem_cons_self d t)
    have ht := ih fun x hx => hl x (List.mem_cons_of_mem d hx)
    simp only [List.map_cons, Nat.ofDigits_cons, List.length_cons, pow_succ]
    omega

theorem bits_to_int_map_compl {state : List ℕ} (hbin : ∀ x ∈ state, x ≤ 1) :
    bits_to_int (state.map fun x => 1 - x) = 2 ^ state.length - 1 - bits_to_int state := by
  have hbin' : ∀ x ∈ state.map fun x => 1 - x, x ≤ 1 := by
    intro x hx
    rw [List.mem_map] at hx
    obtain ⟨y, _, rfl⟩ := hx
    omega
  rw [bits_to_int_eq_ofDigits hbin, bits_to_int_eq_ofDigits hbin', ← List.map_reverse]
  have h := ofDigits_map_compl state.reverse fun x hx => hbin x (List.mem_reverse.mp hx)
  rw [List.length_reverse] at h
  omega

theorem bits_to_int_lt {state : List ℕ} (hbin : ∀ x ∈ state, x ≤ 1) :
    bits_to_int state < 2 ^ state.length := by
  rw [bits_to_int_eq_ofDigits hbin]
  have h := Nat.ofDigits_lt_base_pow_length (b := 2) one_lt_two
    (l := state.reverse) fun x hx => by
      have := hbin x (List.mem_reverse.mp hx)
      omega
  simpa using h

/-- C6: for every width `w ≥ 1` and every `v < 2 ^ w` (base 2 being the only
base `bits_to_int` / `int_to_bits` implement), `bits_to_int (int_to_bits v w)
= v`, and `int_to_bits v w` is a zero-padded most-significant-first binary
digit sequence of exactly `w` digits, with `v = 0` yielding `w` zeros. -/
theorem radix_round_trip (v w : ℕ) (hw : 1 ≤ w) (hv : v < 2 ^ w) :
    bits_to_int (int_to_bits v w) = v ∧
    (int_to_bits v w).length = w ∧
    (∀ j, j < w → (int_to_bits v w).getD j 0 = v / 2 ^ (w - 1 - j) % 2) ∧
    (∀ x ∈ int_to_bits v w, x ≤ 1) ∧
    int_to_bits 0 w = List.replicate w 0 := by
  refine ⟨?_, length_int_to_bits hw hv, ?_, int_to_bits_le_one, int_to_bits_zero hw⟩
  · rw [bits_to_int_eq_ofDigits int_to_bits_le_one]
    exact stateVal_stateStr 2 w v
  · intro j hj
    have h := getD_int_to_bits hv (j := w - 1 - j) (by omega)
    rwa [show w - 1 - (w - 1 - j) = j by omega] at h

/-- C6 witness: the round-trip theorem applied at `v = 13`, `w = 8`. -/
theorem radix_round_trip_witness :
    bits_to_int (int_to_bits 13 8) = 13 ∧
    (int_to_bits 13 8).length = 8 ∧
    (∀ j, j < 8 → (int_to_bits 13 8).getD j 0 = 13 / 2 ^ (8 - 1 - j) % 2) ∧
    (∀ x ∈ int_to_bits 13 8, x ≤ 1) ∧
    int_to_bits 0 8 = List.replicate 8 0 :=
  radix_round_trip 13 8 (by decide) (by decide)

/-- C4: for a binary neighbourhood `state` of length `L ≥ 1` with
most-significant-first value `s = Nat.ofDigits 2 state.reverse` and any rule
number below `2 ^ 2 ^ L`, `nks_rule state rule` is the bit at position
`2 ^ L - 1 - s` of the MSB-first width-`2 ^ L` expansion of `rule`, i.e.
`rule / 2 ^ s % 2`; in particular for rule 254 the all-ones neighbourhood
yields 1 and the all-zeros neighbourhood yields 0. -/
theorem nks_rule_decoding (state : List ℕ) (rule : ℕ) (hbin : ∀ x ∈ state, x ≤ 1)
    (hlen : 1 ≤ state.length) (hrule : rule < 2 ^ 2 ^ state.length) :
    nks_rule state rule = rule / 2 ^ (Nat.ofDigits 2 state.reverse) % 2 ∧
    nks_rule [1, 1, 1] 254 = 1 ∧ nks_rule [0, 0, 0] 254 = 0 := by
  refine ⟨?_, ?_, ?_⟩
  · have hs : bits_to_int state = Nat.ofDigits 2 state.reverse := bits_to_int_eq_ofDigits hbin
    have hslt : Nat.ofDigits 2 state.reverse < 2 ^ state.length := by
      rw [← hs]
      exact bits_to_int_lt hbin
    show (int_to_bits rule (2 ^ state.length)).getD
      (2 ^ state.length - 1 - bits_to_int state) 0 = _
    rw [hs]
    exact getD_int_to_bits hrule hslt
  · simp only [nks_rule, int_to_bits, base_repr, zfill]
    norm_num
    decide
  · simp only [nks_rule, int_to_bits, base_repr, zfill]
    norm_num
    decide

/-- C4 witness: the decoding theorem applied at `state = [1,0,1]`,
`rule = 30`. -/
theorem nks_rule_decoding_witness :
    nks_rule [1, 0, 1] 30 = 30 / 2 ^ (Nat.ofDigits 2 [1, 0, 1].reverse) % 2 ∧
    nks_rule [1, 1, 1] 254 = 1 ∧ nks_rule [0, 0, 0] 254 = 0 :=
  nks_rule_decoding [1, 0, 1] 30 (by decide) (by decide) (by decide)

/-- C5: `number_rule` reads the bit at position `s` of the same MSB-first
width-`2 ^ L` expansion that `nks_rule` uses (so its value is
`rule / 2 ^ (2 ^ L - 1 - s) % 2`); `nks_rule` on a state equals `number_rule`
on the elementwise complement, whose `bits_to_int` value is `2 ^ L - 1 - s`;
and whenever the width-`2 ^ L` expansion is not a palindrome some state of
length `L` distinguishes the two schemes. -/
theorem number_rule_duality (state : List ℕ) (rule : ℕ) (hbin : ∀ x ∈ state, x ≤ 1)
    (hlen : 1 ≤ state.length) (hrule : rule < 2 ^ 2 ^ state.length) :
    number_rule state rule
        = rule / 2 ^ (2 ^ state.length - 1 - Nat.ofDigits 2 state.reverse) % 2 ∧
    nks_rule state rule = number_rule (state.map fun x => 1 - x) rule ∧
    bits_to_int (state.map fun x => 1 - x) = 2 ^ state.length - 1 - bits_to_int state ∧
    (int_to_bits rule (2 ^ state.length) ≠ (int_to_bits rule (2 ^ state.length)).reverse →
      ∃ s', s'.length = state.length ∧ (∀ x ∈ s', x ≤ 1) ∧
        nks_rule s' rule ≠ number_rule s' rule) := by
  have hs : bits_to_int state = Nat.ofDigits 2 state.reverse := bits_to_int_eq_ofDigits hbin
  have hslt : bits_to_int state < 2 ^ state.length := bits_to_int_lt hbin
  refine ⟨?_, ?_, bits_to_int_map_compl hbin, ?_⟩
  · show (int_to_bits rule (2 ^ state.length)).getD (bits_to_int state) 0 = _
    have h := getD_int_to_bits hrule
      (j := 2 ^ state.length - 1 - bits_to_int state) (by omega)
    rw [show 2 ^ state.length - 1 - (2 ^ state.length - 1 - bits_to_int state)
        = bits_to_int state by omega] at h
    rw [h, hs]
  · show (int_to_bits rule (2 ^ state.length)).getD
        (2 ^ state.length - 1 - bits_to_int state) 0
      = (int_to_bits rule (2 ^ (state.map fun x => 1 - x).length)).getD
        (bits_to_int (state.map fun x => 1 - x)) 0
    rw [List.length_map, bits_to_int_map_compl hbin]
  · intro hne
    set L := state.length with hL
    set n := 2 ^ L with hn
    set E := int_to_bits rule n with hE
    have hw : 1 ≤ n := Nat.one_le_two_pow
    have hElen : E.length = n := length_int_to_bits hw hrule
    have hp : ∃ p, p < n ∧ E.getD p 0 ≠ E.getD (n - 1 - p) 0 := by
      by_contra hall
      push_neg at hall
      apply hne
      apply List.ext_getElem?
      intro i
      rcases Nat.lt_or_ge i n with hi | hi
      · have hi1 : i < E.length := by rw [hElen]; omega
        have hi2 : n - 1 - i < E.length := by rw [hElen]; omega
        rw [List.getElem?_reverse hi1, hElen,
          List.getElem?_eq_getElem hi1, List.getElem?_eq_getElem hi2]
        have h := hall i hi
        rw [List.getD_eq_getElem?_getD, List.getD_eq_getElem?_getD,
          List.getElem?_eq_getElem hi1, List.getElem?_eq_getElem hi2] at h
        simp only [Option.getD_some] at h
        rw [h]
      · rw [List.getElem?_eq_none (by rw [hElen]; omega),
          List.getElem?_eq_none (by rw [List.length_reverse, hElen]; omega)]
    obtain ⟨p, hpn, hpne⟩ := hp
    refine ⟨int_to_bits p L, ?len, ?bin, ?ne⟩
    case len => exact length_int_to_bits (by omega) (by rw [← hn]; exact hpn)
    case bin => exact int_to_bits_le_one
    case ne =>
      have hlenp : (int_to_bits p L).length = L :=
        length_int_to_bits (by omega) (by rw [← hn]; exact hpn)
      have hval : bits_to_int (int_to_bits p L) = p := by
        rw [bits_to_int_eq_ofDigits int_to_bits_le_one]
        exact stateVal_stateStr 2 L p
      show (int_to_bits rule (2 ^ (int_to_bits p L).length)).getD
          (2 ^ (int_to_bits p L).length - 1 - bits_to_int (int_to_bits p L)) 0
        ≠ (int_to_bits rule (2 ^ (int_to_bits p L).length)).getD
          (bits_to_int (int_to_bits p L)) 0
      rw [hlenp, hval, ← hn, ← hE]
      exact fun h => hpne h.symm

/-- C5 witness: the duality theorem applied at `state = [1,0,1]`,
`rule = 30`. -/
theorem number_rule_duality_witness :
    number_rule [1, 0, 1] 30
        = 30 / 2 ^ (2 ^ ([1, 0, 1] : List ℕ).length - 1 - Nat.ofDigits 2 [1, 0, 1].reverse) % 2 ∧
    nks_rule [1, 0, 1] 30 = number_rule ([1, 0, 1].map fun x => 1 - x) 30 ∧
    bits_to_int ([1, 0, 1].map fun x => 1 - x)
        = 2 ^ ([1, 0, 1] : List ℕ).length - 1 - bits_to_int [1, 0, 1] ∧
    (int_to_bits 30 (2 ^ ([1, 0, 1] : List ℕ).length)
        ≠ (int_to_bits 30 (2 ^ ([1, 0, 1] : List ℕ).length)).reverse →
      ∃ s', s'.length = ([1, 0, 1] : List ℕ).length ∧ (∀ x ∈ s', x ≤ 1) ∧
        nks_rule s' 30 ≠ number_rule s' 30) :=
  number_rule_duality [1, 0, 1] 30 (by decide) (by decide) (by decide)

/-! ### Evolver lemmas -/

theorem paddedRange_getElem {N r : ℕ} (hr : 1 ≤ r) (hrN : r ≤ N) :
    ∀ i, i < N + 2 * r →
      ((List.range N).drop (N - r) ++ List.range N ++ (List.range N).take r)[i]?
        = some ((i + N - r) % N) := by
  intro i hi
  have hfront : ((List.range N).drop (N - r)).length = r := by
    rw [List.length_drop, List.length_range]
    omega
  have htake : ((List.range N).take r).length = r := by
    rw [List.length_take, List.length_range]
    omega
  have houter : ((List.range N).drop (N - r) ++ List.range N).length = r + N := by
    rw [List.length_append, hfront, List.length_range]
  rcases Nat.lt_or_ge i r with h1 | h1
  · rw [List.getElem?_append_left (by rw [houter]; omega),
      List.getElem?_append_left (by rw [hfront]; omega),
      List.getElem?_drop, List.getElem?_range (by omega)]
    have hmod : (i + N - r) % N = N - r + i := by
      rw [Nat.mod_eq_of_lt (by omega)]
      omega
    rw [hmod]
  · rcases Nat.lt_or_ge i (r + N) with h2 | h2
    · rw [List.getElem?_append_left (by rw [houter]; omega),
        List.getElem?_append_right (by rw [hfront]; omega), hfront,
        List.getElem?_range (by omega)]
      have hmod : (i + N - r) % N = i - r := by
        have he : i + N - r = (i - r) + N := by omega
        rw [he, Nat.add_mod_right, Nat.mod_eq_of_lt (by omega)]
      rw [hmod]
    · rw [List.getElem?_append_right (by rw [houter]; omega), houter,
        List.getElem?_take_of_lt (by omega), List.getElem?_range (by omega)]
      have hmod : (i + N - r) % N = i - (r + N) := by
        have he : i + N - r = (i - (r + N)) + N + N := by omega
        rw [he, Nat.add_mod_right, Nat.add_mod_right, Nat.mod_eq_of_lt (by omega)]
      rw [hmod]

theorem index_strides_range_getElem {N r : ℕ} (hr : 1 ≤ r) (hrN : r ≤ N) {c : ℕ}
    (hc : c < N) :
    (index_strides (List.range N) (2 * r + 1))[c]?
      = some ((((List.range N).drop (N - r) ++ List.range N
          ++ (List.range N).take r).drop c).take (2 * r + 1)) := by
  unfold index_strides
  rw [if_neg (by omega)]
  simp only [List.length_range]
  have hd : (2 * r + 1 - 1) / 2 = r := by omega
  have ht : (2 * r + 1) / 2 = r := by omega
  rw [hd, ht]
  have hlen : (((List.range N).drop (N - r) ++ List.range N
      ++ (List.range N).take r).length + 1 - (2 * r + 1)) = N := by
    simp only [List.length_append, List.length_drop, List.length_take, List.length_range]
    omega
  rw [hlen, List.getElem?_map, List.getElem?_range hc]
  rfl

theorem paddedRange_length {N r : ℕ} (hr : 1 ≤ r) (hrN : r ≤ N) :
    ((List.range N).drop (N - r) ++ List.range N ++ (List.range N).take r).length
      = N + 2 * r := by
  simp only [List.length_append, List.length_drop, List.length_take, List.length_range]
  omega

theorem length_index_strides_range {N r : ℕ} (hr : 1 ≤ r) (hrN : r ≤ N) :
    (index_strides (List.range N) (2 * r + 1)).length = N := by
  unfold index_strides
  rw [if_neg (by omega)]
  simp only [List.length_range]
  have hd : (2 * r + 1 - 1) / 2 = r := by omega
  have ht : (2 * r + 1) / 2 = r := by omega
  rw [hd, ht, List.length_map, List.length_range]
  simp only [List.length_append, List.length_drop, List.length_take, List.length_range]
  omega

theorem length_neighborhoods {cells : List ℤ} {r : ℕ} (hr : 1 ≤ r)
    (hrN : r ≤ cells.length) : (neighborhoods cells r).length = cells.length := by
  unfold neighborhoods
  rw [List.length_map, length_index_strides_range hr hrN]

theorem length_evolveRow (rule : List ℤ → ℕ → ℤ) {r : ℕ} {cells : List ℤ} (hr : 1 ≤ r)
    (hrN : r ≤ cells.length) : (evolveRow rule r cells).length = cells.length := by
  unfold evolveRow
  rw [List.length_map, List.enum_eq_enumFrom, List.enumFrom_length,
    length_neighborhoods hr hrN]

theorem length_evolveRow_iterate (rule : List ℤ → ℕ → ℤ) {r : ℕ} {ca : List ℤ}
    (hr : 1 ≤ r) (hrN : r ≤ ca.length) :
    ∀ i, ((evolveRow rule r)^[i] ca).length = ca.length := by
  intro i
  induction i with
  | zero => rfl
  | succ i ih =>
    rw [Function.iterate_succ_apply', length_evolveRow rule hr (by omega)]
    exact ih

theorem evolveFrom_getElem (rule : List ℤ → ℕ → ℤ) (r : ℕ) :
    ∀ (n i : ℕ) (row : List ℤ), i < n →
      (evolveFrom rule r n row)[i]? = some ((evolveRow rule r)^[i] row) := by
  intro n
  induction n with
  | zero => omega
  | succ n ih =>
    intro i row hi
    cases i with
    | zero =>
      rw [evolveFrom]
      simp
    | succ i =>
      rw [evolveFrom, List.getElem?_cons_succ, ih i (evolveRow rule r row) (by omega),
        ← Function.iterate_succ_apply]

theorem evolveFrom_length (rule : List ℤ → ℕ → ℤ) (r : ℕ) :
    ∀ (n : ℕ) (row : List ℤ), (evolveFrom rule r n row).length = n := by
  intro n
  induction n with
  | zero => intro row; rfl
  | succ n ih => intro row; rw [evolveFrom, List.length_cons, ih]

theorem evolve_getElem (ca : List ℤ) (n_steps : ℕ) (rule : List ℤ → ℕ → ℤ) (r i : ℕ)
    (hi : i < n_steps) :
    (evolve ca n_steps rule r)[i]? = some ((evolveRow rule r)^[i] ca) :=
  evolveFrom_getElem rule r n_steps i ca hi

theorem evolve_length (ca : List ℤ) (n_steps : ℕ) (rule : List ℤ → ℕ → ℤ) (r : ℕ) :
    (evolve ca n_steps rule r).length = n_steps :=
  evolveFrom_length rule r n_steps ca

theorem enum_map_eq_range_map (g : List ℤ → ℕ → ℤ) (l : List (List ℤ)) :
    (l.enum.map fun cs => g cs.2 cs.1)
      = (List.range l.length).map fun c => g (l.getD c []) c := by
  apply List.ext_getElem?
  intro c
  rw [List.getElem?_map, List.getElem?_map, List.enum_eq_enumFrom, List.getElem?_enumFrom]
  rcases Nat.lt_or_ge c l.length with hc | hc
  · rw [List.getElem?_range hc, List.getElem?_eq_getElem hc]
    simp [List.getD_eq_getElem?_getD, List.getElem?_eq_getElem hc]
  · rw [List.getElem?_eq_none (by simpa using hc),
      List.getElem?_eq_none (by rw [List.length_range]; omega)]
    rfl

/-- C1: for a previous row of length `N ≥ 1` with periodic boundaries and a
radius `1 ≤ r ≤ N`, the neighbourhood handed to the rule function for cell
`c` by `evolve` has exactly `2r+1` entries, the entry at offset `j` being the
row's state at index `(c + j - r) mod N` (written `(c + j + N - r) % N`
to stay in `ℕ`); `evolveRow` passes exactly this neighbourhood, with `c`, to
the rule function. -/
theorem evolve_neighborhood_periodic (cells : List ℤ) (r c : ℕ)
    (hr : 1 ≤ r) (hrN : r ≤ cells.length) (hc : c < cells.length) :
    ∃ w, (neighborhoods cells r)[c]? = some w ∧ w.length = 2 * r + 1 ∧
      (∀ j, j < 2 * r + 1 →
        w[j]? = cells[(c + j + cells.length - r) % cells.length]?) ∧
      ∀ rule : List ℤ → ℕ → ℤ, (evolveRow rule r cells)[c]? = some (rule w c) := by
  set N := cells.length with hN
  set P := (List.range N).drop (N - r) ++ List.range N ++ (List.range N).take r with hP
  set W := (P.drop c).take (2 * r + 1) with hW
  have hPlen : P.length = N + 2 * r := paddedRange_length hr hrN
  have hWlen : W.length = 2 * r + 1 := by
    rw [hW, List.length_take, List.length_drop, hPlen]
    omega
  have hmain : (neighborhoods cells r)[c]? = some (W.map fun ix => cells.getD ix 0) := by
    unfold neighborhoods
    rw [List.getElem?_map, ← hN, index_strides_range_getElem hr hrN hc]
    rfl
  refine ⟨W.map fun ix => cells.getD ix 0, hmain, by rw [List.length_map, hWlen], ?_, ?_⟩
  · intro j hj
    have hWj : W[j]? = some ((c + j + N - r) % N) := by
      rw [hW, List.getElem?_take_of_lt hj, List.getElem?_drop,
        paddedRange_getElem hr hrN (c + j) (by omega)]
    have hidx : (c + j + N - r) % N < N := Nat.mod_lt _ (by omega)
    have hR : cells[(c + j + N - r) % N]? = some (cells.getD ((c + j + N - r) % N) 0) := by
      rw [List.getD_eq_getElem?_getD, List.getElem?_eq_getElem hidx]
      rfl
    rw [List.getElem?_map, hWj, hR]
    rfl
  · intro rule
    unfold evolveRow
    rw [List.getElem?_map, List.enum_eq_enumFrom, List.getElem?_enumFrom, hmain]
    simp

/-- C1 witness: the periodic-neighbourhood theorem applied to the row
`[3, 5, 9]` with radius 1 at cell index 0. -/
theorem evolve_neighborhood_periodic_witness :
    ∃ w, (neighborhoods [3, 5, 9] 1)[0]? = some w ∧ w.length = 2 * 1 + 1 ∧
      (∀ j, j < 2 * 1 + 1 →
        w[j]? = ([3, 5, 9] : List ℤ)[(0 + j + ([3, 5, 9] : List ℤ).length - 1)
          % ([3, 5, 9] : List ℤ).length]?) ∧
      ∀ rule : List ℤ → ℕ → ℤ, (evolveRow rule 1 [3, 5, 9])[0]? = some (rule w 0) :=
  evolve_neighborhood_periodic [3, 5, 9] 1 0 (by decide) (by decide) (by decide)

/-- C2: every row `i` with `1 ≤ i < n_steps` of the grid returned by `evolve`
is the list of rule values on the neighbourhoods of the fully computed row
`i-1`, for cells `0 .. N-1` — steps are synchronous and step `i` depends only
on step `i-1`. -/
theorem evolve_synchronous (ca : List ℤ) (n_steps : ℕ) (rule : List ℤ → ℕ → ℤ)
    (r i : ℕ) (h1 : 1 ≤ i) (h2 : i < n_steps) (hr : 1 ≤ r) (hrN : r ≤ ca.length) :
    ∃ prev, (evolve ca n_steps rule r)[i - 1]? = some prev ∧ prev.length = ca.length ∧
      (evolve ca n_steps rule r)[i]?
        = some ((List.range ca.length).map fun c =>
            rule ((neighborhoods prev r).getD c []) c) := by
  refine ⟨(evolveRow rule r)^[i - 1] ca,
    evolve_getElem ca n_steps rule r (i - 1) (by omega),
    length_evolveRow_iterate rule hr hrN (i - 1), ?_⟩
  have hstep : (evolveRow rule r)^[i] ca
      = evolveRow rule r ((evolveRow rule r)^[i - 1] ca) := by
    conv_lhs => rw [show i = (i - 1) + 1 by omega]
    rw [Function.iterate_succ_apply']
  rw [evolve_getElem ca n_steps rule r i h2, hstep]
  have hplen : ((evolveRow rule r)^[i - 1] ca).length = ca.length :=
    length_evolveRow_iterate rule hr hrN (i - 1)
  have hrow : evolveRow rule r ((evolveRow rule r)^[i - 1] ca)
      = (List.range ca.length).map fun c =>
          rule ((neighborhoods ((evolveRow rule r)^[i - 1] ca) r).getD c []) c := by
    simp only [evolveRow]
    rw [enum_map_eq_range_map, length_neighborhoods hr (by rw [hplen]; exact hrN), hplen]
  rw [hrow]

/-- C2 witness: the synchronicity theorem applied to the row `[0, 1]` with
`n_steps = 3`, radius 1, step `i = 2`, and a rule summing the neighbourhood. -/
theorem evolve_synchronous_witness :
    ∃ prev, (evolve [0, 1] 3 (fun s _ => s.sum) 1)[2 - 1]? = some prev ∧
      prev.length = ([0, 1] : List ℤ).length ∧
      (evolve [0, 1] 3 (fun s _ => s.sum) 1)[2]?
        = some ((List.range ([0, 1] : List ℤ).length).map fun c =>
            (fun (s : List ℤ) (_ : ℕ) => s.sum) ((neighborhoods prev 1).getD c []) c) :=
  evolve_synchronous [0, 1] 3 (fun s _ => s.sum) 1 2 (by decide) (by decide) (by decide)
    (by decide)

/-- C3: for `n_steps ≥ 1` and a radius `1 ≤ r ≤ N`, the grid returned by
`evolve` has exactly `n_steps` rows, each of length `N`, and its row 0 is the
supplied initial row. -/
theorem evolve_shape (ca : List ℤ) (n_steps : ℕ) (rule : List ℤ → ℕ → ℤ) (r : ℕ)
    (hn : 1 ≤ n_steps) (hr : 1 ≤ r) (hrN : r ≤ ca.length) :
    (evolve ca n_steps rule r).length = n_steps ∧
    (evolve ca n_steps rule r)[0]? = some ca ∧
    ∀ row ∈ evolve ca n_steps rule r, row.length = ca.length := by
  refine ⟨evolve_length ca n_steps rule r, ?_, ?_⟩
  · rw [evolve_getElem ca n_steps rule r 0 (by omega)]
    rfl
  · intro row hrow
    rw [List.mem_iff_getElem?] at hrow
    obtain ⟨j, hj⟩ := hrow
    have hjlt : j < n_steps := by
      by_contra hge
      rw [List.getElem?_eq_none
        (by rw [evolve_length ca n_steps rule r]; omega)] at hj
      exact Option.noConfusion hj
    rw [evolve_getElem ca n_steps rule r j hjlt] at hj
    rw [← Option.some_inj.mp hj]
    exact length_evolveRow_iterate rule hr hrN j

/-- C3 witness: the shape theorem applied to the row `[2, 4, 6]` with
`n_steps = 4`, radius 1, and a rule taking the neighbourhood head. -/
theorem evolve_shape_witness :
    (evolve [2, 4, 6] 4 (fun s _ => s.headD 0) 1).length = 4 ∧
    (evolve [2, 4, 6] 4 (fun s _ => s.headD 0) 1)[0]? = some [2, 4, 6] ∧
    ∀ row ∈ evolve [2, 4, 6] 4 (fun s _ => s.headD 0) 1,
      row.length = ([2, 4, 6] : List ℤ).length :=
  evolve_shape [2, 4, 6] 4 (fun s _ => s.headD 0) 1 (by decide) (by decide) (by decide)

/-! ### Totalistic-rule lemmas -/

theorem pyGet_not_range_error (l : List ℕ) (i : ℤ) :
    pyGet l i ≠ Except.error "rule number out of range" := by
  unfold pyGet
  split_ifs <;> intro h
  · exact Except.noConfusion h
  · simp only [Except.error.injEq] at h
    exact absurd h (by decide)
  · exact Except.noConfusion h
  · simp only [Except.error.injEq] at h
    exact absurd h (by decide)

/-- C9: for `2 ≤ k ≤ 36`, `totalistic_rule` answers with the range error, for
every neighbourhood state, exactly when the base-`k` representation of the
rule number is longer than `3k-2` digits; when it is at most `3k-2` digits
long, no range error is produced (though an `IndexError` still can be, see
the negative-wrap theorem). -/
theorem totalistic_rule_range_check (state : List ℕ) (k rule : ℕ)
    (hk2 : 2 ≤ k) (hk36 : k ≤ 36) :
    ((base_repr k rule).length > 3 * k - 2 →
      totalistic_rule state k rule = .error "rule number out of range") ∧
    ((base_repr k rule).length ≤ 3 * k - 2 →
      totalistic_rule state k rule ≠ .error "rule number out of range") := by
  constructor
  · intro hlen
    unfold totalistic_rule
    rw [if_pos (by rw [length_zfill]; omega)]
  · intro hlen
    unfold totalistic_rule
    rw [if_neg (by rw [length_zfill]; omega)]
    exact pyGet_not_range_error _ _

/-- C9 witness: the range-check theorem applied at `k = 3`,
`rule = 3 ^ 8 = 6561` (nine base-3 digits), state `[0]`. -/
theorem totalistic_rule_range_check_witness :
    ((base_repr 3 6561).length > 3 * 3 - 2 →
      totalistic_rule [0] 3 6561 = .error "rule number out of range") ∧
    ((base_repr 3 6561).length ≤ 3 * 3 - 2 →
      totalistic_rule [0] 3 6561 ≠ .error "rule number out of range") :=
  totalistic_rule_range_check [0] 3 6561 (by decide) (by decide)

/-- C10: with a rule number that fits in `3k-2` base-`k` digits,
`totalistic_rule` performs no validation of the neighbourhood sum `S`: for
`S ≤ 3k-3` it returns the documented digit for sum `S`; for
`3k-2 ≤ S ≤ 6k-5` the Python index `(3k-3) - S` is negative and wraps, so it
silently returns the digit assigned to sum `S - (3k-2)`; only for
`S > 6k-5` does it raise an `IndexError` (not the documented range error).
Sums above `3k-3` require a neighbourhood of more than 3 cells of valid
digits, and any length above 3 admits one. -/
theorem totalistic_rule_negative_wrap (state : List ℕ) (k rule : ℕ) (hk2 : 2 ≤ k)
    (hk36 : k ≤ 36) (hfit : (base_repr k rule).length ≤ 3 * k - 2) :
    (state.sum ≤ 3 * k - 3 →
      totalistic_rule state k rule = .ok (rule_digit k rule state.sum)) ∧
    (3 * k - 2 ≤ state.sum → state.sum ≤ 6 * k - 5 →
      totalistic_rule state k rule
        = .ok (rule_digit k rule (state.sum - (3 * k - 2)))) ∧
    (6 * k - 5 < state.sum →
      totalistic_rule state k rule = .error "IndexError: string index out of range") ∧
    (state.length ≤ 3 → (∀ x ∈ state, x < k) → state.sum ≤ 3 * k - 3) ∧
    (∀ L, 3 < L → ∃ s' : List ℕ, s'.length = L ∧ (∀ x ∈ s', x < k) ∧
      3 * k - 3 < s'.sum) := by
  have hmaster : totalistic_rule state k rule
      = pyGet (zfill (3 * k - 2) (base_repr k rule)) ((3 * k - 3 : ℤ) - (state.sum : ℤ)) := by
    unfold totalistic_rule
    rw [if_neg (by rw [length_zfill]; omega)]
  have hRlen : (zfill (3 * k - 2) (base_repr k rule)).length = 3 * k - 2 := by
    rw [length_zfill]
    omega
  refine ⟨?_, ?_, ?_, ?_, ?_⟩
  · intro hS
    rw [hmaster]
    unfold pyGet
    rw [hRlen, if_pos (by omega), if_pos (by omega)]
    have ht : ((3 * k - 3 : ℤ) - (state.sum : ℤ)).toNat = 3 * k - 3 - state.sum := by
      omega
    rw [ht]
    rfl
  · intro hS1 hS2
    rw [hmaster]
    unfold pyGet
    rw [hRlen, if_neg (by omega), if_pos (by omega)]
    have ht : ((3 * k - 3 : ℤ) - (state.sum : ℤ) + (3 * k - 2 : ℕ)).toNat
        = 3 * k - 3 - (state.sum - (3 * k - 2)) := by
      omega
    rw [ht]
    rfl
  · intro hS
    rw [hmaster]
    unfold pyGet
    rw [hRlen, if_neg (by omega), if_neg (by omega)]
  · intro hlen3 hdig
    have h := List.sum_le_card_nsmul state (k - 1) fun x hx => by
      have := hdig x hx
      omega
    rw [smul_eq_mul] at h
    have h2 : state.length * (k - 1) ≤ 3 * (k - 1) :=
      Nat.mul_le_mul_right _ hlen3
    omega
  · intro L hL
    refine ⟨List.replicate L (k - 1), List.length_replicate .., ?_, ?_⟩
    · intro x hx
      rw [List.eq_of_mem_replicate hx]
      omega
    · rw [List.sum_replicate, smul_eq_mul]
      have h1 : 4 * (k - 1) ≤ L * (k - 1) := Nat.mul_le_mul_right _ (by omega)
      omega

/-- C10 witness: the negative-wrap theorem applied at `k = 3`, `rule = 777`,
state `[2, 2, 2, 2, 2]` (sum 10, in the silent-wrap band). -/
theorem totalistic_rule_negative_wrap_witness :
    (([2, 2, 2, 2, 2] : List ℕ).sum ≤ 3 * 3 - 3 →
      totalistic_rule [2, 2, 2, 2, 2] 3 777
        = .ok (rule_digit 3 777 ([2, 2, 2, 2, 2] : List ℕ).sum)) ∧
    (3 * 3 - 2 ≤ ([2, 2, 2, 2, 2] : List ℕ).sum →
        ([2, 2, 2, 2, 2] : List ℕ).sum ≤ 6 * 3 - 5 →
      totalistic_rule [2, 2, 2, 2, 2] 3 777
        = .ok (rule_digit 3 777 (([2, 2, 2, 2, 2] : List ℕ).sum - (3 * 3 - 2)))) ∧
    (6 * 3 - 5 < ([2, 2, 2, 2, 2] : List ℕ).sum →
      totalistic_rule [2, 2, 2, 2, 2] 3 777
        = .error "IndexError: string index out of range") ∧
    (([2, 2, 2, 2, 2] : List ℕ).length ≤ 3 → (∀ x ∈ ([2, 2, 2, 2, 2] : List ℕ), x < 3) →
      ([2, 2, 2, 2, 2] : List ℕ).sum ≤ 3 * 3 - 3) ∧
    (∀ L, 3 < L → ∃ s' : List ℕ, s'.length = L ∧ (∀ x ∈ s', x < 3) ∧
      3 * 3 - 3 < s'.sum) :=
  totalistic_rule_negative_wrap [2, 2, 2, 2, 2] 3 777 (by decide) (by decide)
    (by norm_num [base_repr])

/-! ### Random-rule-table lemmas -/

theorem tableLoop_succ_fst (k n qs : ℕ) (sq iso : Bool) (o : RandOracle) (m : ℕ) :
    (tableLoop k n qs sq iso o (m + 1)).1
      = (stateStr k n m, valAt k n qs sq iso o m) :: (tableLoop k n qs sq iso o m).1 :=
  rfl

theorem tableLoop_succ_snd (k n qs : ℕ) (sq iso : Bool) (o : RandOracle) (m : ℕ) :
    (tableLoop k n qs sq iso o (m + 1)).2
      = if (stepPair qs sq iso o (tableLoop k n qs sq iso o m).1 m (stateStr k n m)).2
        then (tableLoop k n qs sq iso o m).2 + 1 else (tableLoop k n qs sq iso o m).2 :=
  rfl

theorem valAt_eq (k n qs : ℕ) (sq iso : Bool) (o : RandOracle) (m : ℕ) :
    valAt k n qs sq iso o m
      = if sq && isUniform (stateStr k n m) then (stateStr k n m).headD 0
        else
          match (if iso
              then (tableLoop k n qs sq iso o m).1.lookup (stateStr k n m).reverse
              else none) with
          | some v => v
          | none => if o.coin m then qs else o.choice m := by
  unfold valAt stepPair
  split
  · rfl
  · split
    · rfl
    · split <;> rfl

theorem length_stateStr {k n i : ℕ} (hk : 1 < k) (hn : 1 ≤ n) (hi : i < k ^ n) :
    (stateStr k n i).length = n := by
  unfold stateStr
  rw [length_zfill]
  have := length_base_repr_le hk hn hi
  omega

theorem stateStr_digits_lt {k n i : ℕ} (hk : 1 < k) : ∀ d ∈ stateStr k n i, d < k := by
  intro d hd
  unfold stateStr zfill at hd
  rw [List.mem_append] at hd
  rcases hd with hd | hd
  · rw [List.eq_of_mem_replicate hd]
    omega
  · exact base_repr_lt hk d hd

theorem stateStr_injective {k n i j : ℕ} (h : stateStr k n i = stateStr k n j) : i = j := by
  rw [← stateVal_stateStr k n i, h, stateVal_stateStr]

theorem isUniform_reverse_eq {s : List ℕ} (h : isUniform s = true) : s.reverse = s := by
  unfold isUniform at h
  rw [Bool.and_eq_true, List.all_eq_true] at h
  have hrep : s = List.replicate s.length (s.headD 0) := by
    apply List.eq_replicate_of_mem
    intro b hb
    have := h.2 b hb
    rwa [beq_iff_eq] at this
  conv_lhs => rw [hrep]
  rw [List.reverse_replicate, ← hrep]

theorem stateStr_mirrorIdx {k n i : ℕ} (hk : 1 < k) (hn : 1 ≤ n) (hi : i < k ^ n) :
    stateStr k n (mirrorIdx k n i) = (stateStr k n i).reverse := by
  unfold mirrorIdx
  apply stateStr_stateVal hk hn
  · rw [List.length_reverse]
    exact length_stateStr hk hn hi
  · intro d hd
    exact stateStr_digits_lt hk d (List.mem_reverse.mp hd)

theorem mirrorIdx_lt {k n i : ℕ} (hk : 1 < k) (hn : 1 ≤ n) (hi : i < k ^ n) :
    mirrorIdx k n i < k ^ n := by
  unfold mirrorIdx
  have h := stateVal_lt hk (s := (stateStr k n i).reverse)
    fun d hd => stateStr_digits_lt hk d (List.mem_reverse.mp hd)
  rwa [List.length_reverse, length_stateStr hk hn hi] at h

theorem mirrorIdx_mirrorIdx {k n i : ℕ} (hk : 1 < k) (hn : 1 ≤ n) (hi : i < k ^ n) :
    mirrorIdx k n (mirrorIdx k n i) = i := by
  conv_lhs => rw [mirrorIdx, stateStr_mirrorIdx hk hn hi]
  rw [List.reverse_reverse, stateVal_stateStr]

theorem mirrorIdx_eq_of_uniform {k n i : ℕ} (h : isUniform (stateStr k n i) = true) :
    mirrorIdx k n i = i := by
  unfold mirrorIdx
  rw [isUniform_reverse_eq h, stateVal_stateStr]

theorem tableLoop_lookup_lt (k n qs : ℕ) (sq iso : Bool) (o : RandOracle) :
    ∀ m j, j < m →
      ((tableLoop k n qs sq iso o m).1).lookup (stateStr k n j)
        = some (valAt k n qs sq iso o j) := by
  intro m
  induction m with
  | zero => omega
  | succ m ih =>
    intro j hj
    rw [tableLoop_succ_fst, List.lookup_cons]
    rcases eq_or_lt_of_le (Nat.lt_succ_iff.mp hj) with rfl | hjm
    · simp
    · have hne : (stateStr k n j == stateStr k n m) = false := by
        rw [beq_eq_false_iff_ne]
        exact fun h => absurd (stateStr_injective h) (by omega)
      rw [hne]
      exact ih j hjm

theorem tableLoop_lookup_some (k n qs : ℕ) (sq iso : Bool) (o : RandOracle) :
    ∀ m s v, ((tableLoop k n qs sq iso o m).1).lookup s = some v →
      ∃ j, j < m ∧ s = stateStr k n j ∧ v = valAt k n qs sq iso o j := by
  intro m
  induction m with
  | zero =>
    intro s v h
    exact Option.noConfusion h
  | succ m ih =>
    intro s v h
    rw [tableLoop_succ_fst, List.lookup_cons] at h
    rcases hbeq : s == stateStr k n m with _ | _
    · rw [hbeq] at h
      obtain ⟨j, hj, hs, hv⟩ := ih s v h
      exact ⟨j, by omega, hs, hv⟩
    · rw [hbeq] at h
      refine ⟨m, by omega, ?_, ?_⟩
      · exact beq_iff_eq.mp hbeq
      · exact (Option.some_inj.mp h).symm

theorem valAt_copy {k n : ℕ} (qs : ℕ) (sq : Bool) (o : RandOracle) (hk : 1 < k)
    (hn : 1 ≤ n) {m : ℕ} (hm : m < k ^ n) (hlt : mirrorIdx k n m < m) :
    valAt k n qs sq true o m = valAt k n qs sq true o (mirrorIdx k n m) := by
  rw [valAt_eq k n qs sq true o m]
  have hguard : ¬(sq && isUniform (stateStr k n m)) = true := by
    intro hg
    rw [Bool.and_eq_true] at hg
    rw [mirrorIdx_eq_of_uniform hg.2] at hlt
    omega
  rw [if_neg hguard, if_pos rfl, ← stateStr_mirrorIdx hk hn hm,
    tableLoop_lookup_lt k n qs sq true o m (mirrorIdx k n m) hlt]

theorem valAt_mirror {k n : ℕ} (qs : ℕ) (sq : Bool) (o : RandOracle) (hk : 1 < k)
    (hn : 1 ≤ n) {m : ℕ} (hm : m < k ^ n) :
    valAt k n qs sq true o m = valAt k n qs sq true o (mirrorIdx k n m) := by
  rcases lt_trichotomy (mirrorIdx k n m) m with h | h | h
  · exact valAt_copy qs sq o hk hn hm h
  · rw [h]
  · have h2 := valAt_copy qs sq o hk hn (mirrorIdx_lt hk hn hm)
      (by rw [mirrorIdx_mirrorIdx hk hn hm]; exact h)
    rw [mirrorIdx_mirrorIdx hk hn hm] at h2
    exact h2.symm

/-- C7: with `isotropic = True`, for every outcome of the random draws the
finished table maps every neighbourhood and its reverse to the same value:
looking up any key's reverse gives the same result as looking up the key. -/
theorem random_rule_table_isotropic (k r qs : ℕ) (sq : Bool) (o : RandOracle)
    (hk2 : 2 ≤ k) (hk36 : k ≤ 36) (hr : 1 ≤ r) (hqs : qs ≤ k - 1) :
    ∃ lam, random_rule_table k r qs sq true o
        = .ok ((tableLoop k (2 * r + 1) qs sq true o (k ^ (2 * r + 1))).1, lam, qs) ∧
      ∀ s, ((tableLoop k (2 * r + 1) qs sq true o (k ^ (2 * r + 1))).1).lookup s.reverse
        = ((tableLoop k (2 * r + 1) qs sq true o (k ^ (2 * r + 1))).1).lookup s := by
  have hk : 1 < k := by omega
  have hn : 1 ≤ 2 * r + 1 := by omega
  refine ⟨(((k : ℚ) ^ (2 * r + 1))
      - ((tableLoop k (2 * r + 1) qs sq true o (k ^ (2 * r + 1))).2 : ℚ))
      / ((k : ℚ) ^ (2 * r + 1)), ?_, ?_⟩
  · unfold random_rule_table
    rw [if_pos hqs]
  · intro s
    rcases hlook : ((tableLoop k (2 * r + 1) qs sq true o (k ^ (2 * r + 1))).1).lookup s
      with _ | v
    · rcases hlook2 : ((tableLoop k (2 * r + 1) qs sq true o
          (k ^ (2 * r + 1))).1).lookup s.reverse with _ | w
      · rfl
      · obtain ⟨j, hj, hs, _⟩ :=
          tableLoop_lookup_some k (2 * r + 1) qs sq true o _ _ _ hlook2
        have hsj : s = stateStr k (2 * r + 1) (mirrorIdx k (2 * r + 1) j) := by
          rw [stateStr_mirrorIdx hk hn hj, ← hs, List.reverse_reverse]
        rw [hsj, tableLoop_lookup_lt k (2 * r + 1) qs sq true o _ _
          (mirrorIdx_lt hk hn hj)] at hlook
        exact Option.noConfusion hlook
    · obtain ⟨j, hj, hs, hv⟩ :=
        tableLoop_lookup_some k (2 * r + 1) qs sq true o _ _ _ hlook
      rw [hs, ← stateStr_mirrorIdx hk hn hj,
        tableLoop_lookup_lt k (2 * r + 1) qs sq true o _ _ (mirrorIdx_lt hk hn hj),
        ← valAt_mirror qs sq o hk hn hj, hv]

/-- C7 witness: the isotropy theorem applied at `k = 2`, `r = 1`, quiescent
state 0, `strong_quiescence = False`, and the oracle whose coin is always
true and whose choice is always 1. -/
theorem random_rule_table_isotropic_witness :
    ∃ lam, random_rule_table 2 1 0 false true ⟨fun _ => true, fun _ => 1⟩
        = .ok ((tableLoop 2 (2 * 1 + 1) 0 false true ⟨fun _ => true, fun _ => 1⟩
            (2 ^ (2 * 1 + 1))).1, lam, 0) ∧
      ∀ s, ((tableLoop 2 (2 * 1 + 1) 0 false true ⟨fun _ => true, fun _ => 1⟩
            (2 ^ (2 * 1 + 1))).1).lookup s.reverse
        = ((tableLoop 2 (2 * 1 + 1) 0 false true ⟨fun _ => true, fun _ => 1⟩
            (2 ^ (2 * 1 + 1))).1).lookup s :=
  random_rule_table_isotropic 2 1 0 false ⟨fun _ => true, fun _ => 1⟩
    (by decide) (by decide) (by decide) (by decide)

theorem stepPair_snd_eq {qs : ℕ} {sq iso : Bool} {o : RandOracle}
    {tbl : List (List ℕ × ℕ)} {i : ℕ} {st : List ℕ} (h : o.choice i ≠ qs) :
    (stepPair qs sq iso o tbl i st).2 = ((stepPair qs sq iso o tbl i st).1 == qs) := by
  unfold stepPair
  split
  · rfl
  · split
    · rfl
    · split
      · show true = (qs == qs)
        simp
      · show false = (o.choice i == qs)
        rw [eq_comm, beq_eq_false_iff_ne]
        exact h

theorem tableLoop_length (k n qs : ℕ) (sq iso : Bool) (o : RandOracle) :
    ∀ m, (tableLoop k n qs sq iso o m).1.length = m := by
  intro m
  induction m with
  | zero => rfl
  | succ m ih => rw [tableLoop_succ_fst, List.length_cons, ih]

theorem tableLoop_count_eq (k n qs : ℕ) (sq iso : Bool) (o : RandOracle)
    (hch : ∀ i, o.choice i ≠ qs) :
    ∀ m, (tableLoop k n qs sq iso o m).2
      = ((tableLoop k n qs sq iso o m).1.countP fun p => p.2 == qs) := by
  intro m
  induction m with
  | zero => rfl
  | succ m ih =>
    rw [tableLoop_succ_snd, tableLoop_succ_fst, List.countP_cons,
      stepPair_snd_eq (hch m), ih]
    show (if (valAt k n qs sq iso o m == qs) = true then _ else _) = _
    rcases h : (valAt k n qs sq iso o m == qs) with _ | _ <;> simp [h]

/-- C8: for every valid call and every outcome of the random draws (with
`random.choice` drawing from the non-quiescent states, as the code
guarantees), the returned actual lambda is exactly `(T - q) / T` over `ℚ`,
where `T = k ^ (2r+1)` is the table size and `q` counts the entries of the
returned table mapping to the quiescent state, and it lies in `[0, 1]`. -/
theorem random_rule_table_lambda (k r qs : ℕ) (sq iso : Bool) (o : RandOracle)
    (hk2 : 2 ≤ k) (hk36 : k ≤ 36) (hr : 1 ≤ r) (hqs : qs ≤ k - 1)
    (hch : ∀ i, o.choice i ∈ other_states k qs) :
    ∃ tbl lam, random_rule_table k r qs sq iso o = .ok (tbl, lam, qs) ∧
      tbl.length = k ^ (2 * r + 1) ∧
      lam = (((k ^ (2 * r + 1) : ℕ) : ℚ)
          - ((tbl.countP fun p => p.2 == qs : ℕ) : ℚ)) / ((k ^ (2 * r + 1) : ℕ) : ℚ) ∧
      0 ≤ lam ∧ lam ≤ 1 := by
  have hch' : ∀ i, o.choice i ≠ qs := by
    intro i
    have h := hch i
    unfold other_states at h
    rw [List.mem_filter] at h
    simpa using h.2
  have hT : 0 < k ^ (2 * r + 1) := Nat.pos_pow_of_pos _ (by omega)
  have hcnt : (tableLoop k (2 * r + 1) qs sq iso o (k ^ (2 * r + 1))).2
      ≤ k ^ (2 * r + 1) := by
    rw [tableLoop_count_eq k (2 * r + 1) qs sq iso o hch']
    calc ((tableLoop k (2 * r + 1) qs sq iso o (k ^ (2 * r + 1))).1.countP
        fun p => p.2 == qs)
        ≤ (tableLoop k (2 * r + 1) qs sq iso o (k ^ (2 * r + 1))).1.length :=
          List.countP_le_length _
      _ = k ^ (2 * r + 1) := tableLoop_length k (2 * r + 1) qs sq iso o _
  refine ⟨(tableLoop k (2 * r + 1) qs sq iso o (k ^ (2 * r + 1))).1,
    (((k : ℚ) ^ (2 * r + 1))
      - ((tableLoop k (2 * r + 1) qs sq iso o (k ^ (2 * r + 1))).2 : ℚ))
      / ((k : ℚ) ^ (2 * r + 1)), ?_,
    tableLoop_length k (2 * r + 1) qs sq iso o _, ?_, ?_, ?_⟩
  · unfold random_rule_table
    rw [if_pos hqs]
  · rw [← tableLoop_count_eq k (2 * r + 1) qs sq iso o hch']
    push_cast
    ring
  · apply div_nonneg
    · rw [sub_nonneg]
      exact_mod_cast hcnt
    · positivity
  · rw [div_le_one (by exact_mod_cast hT)]
    have h0 : (0 : ℚ) ≤ ((tableLoop k (2 * r + 1) qs sq iso o (k ^ (2 * r + 1))).2 : ℚ) := by
      positivity
    linarith

/-- C8 witness: the actual-lambda theorem applied at `k = 2`, `r = 1`,
quiescent state 0, both flags false, and the oracle whose coin is always
true and whose choice is always 1. -/
theorem random_rule_table_lambda_witness :
    ∃ tbl lam, random_rule_table 2 1 0 false false ⟨fun _ => true, fun _ => 1⟩
        = .ok (tbl, lam, 0) ∧
      tbl.length = 2 ^ (2 * 1 + 1) ∧
      lam = (((2 ^ (2 * 1 + 1) : ℕ) : ℚ)
          - ((tbl.countP fun p => p.2 == 0 : ℕ) : ℚ)) / ((2 ^ (2 * 1 + 1) : ℕ) : ℚ) ∧
      0 ≤ lam ∧ lam ≤ 1 :=
  random_rule_table_lambda 2 1 0 false false ⟨fun _ => true, fun _ => 1⟩
    (by decide) (by decide) (by decide) (by decide)
    (fun i => by show (1 : ℕ) ∈ other_states 2 0; decide)

end CellPyLib
